import Mathlib

/-!
Verification of the `stacked-diffs` traversal planner and execution engine.

The definitions below are a shallow embedding of `src/stacked_diffs/commands/run.py`
and `src/stacked_diffs/utils/git.py`.  Python dictionaries holding environment
variables are modelled as association lists (`EnvMap`) whose lookup semantics
match `dict` lookup, and `dict.update` is modelled by `dictUpdate` (lookup
equivalent to Python `update`).  Side effects of the engine (branch checkouts,
shell invocations, graph/checkpoint persistence, `sys.exit`) are modelled as an
explicit event log threaded through an engine state, with shell-command
outcomes supplied by an oracle `sh : String → EnvMap → Bool` mirroring
`run_shell_command`'s success flag.
-/

namespace StackedDiffs

/-- Environment mapping `str → str`, modelling a Python `dict[str, str]`
as an association list whose first match is the binding. -/
abbrev EnvMap := List (String × String)

/-- Dictionary lookup, first binding wins (Python `d[k]` / `d.get(k)`). -/
def envLookup (m : EnvMap) (k : String) : Option String :=
  m.lookup k

/-- Python `base.update(overlay)`, modelled up to lookup semantics: every key
of `overlay` now maps to `overlay`'s value, every other key keeps `base`'s
value.  (Python keeps updated keys at their old position; position is
irrelevant to every lookup, which is all the engine observes.) -/
def dictUpdate (base overlay : EnvMap) : EnvMap :=
  base.filter (fun kv => (envLookup overlay kv.1).isNone) ++ overlay

lemma lookup_append (l₁ l₂ : EnvMap) (k : String) :
    (l₁ ++ l₂).lookup k = (l₁.lookup k).orElse (fun _ => l₂.lookup k) := by
  induction l₁ with
  | nil => simp [List.lookup]
  | cons kv rest ih =>
    by_cases h : k = kv.1
    · simp [List.lookup, h, Option.orElse]
    · have hb : (k == kv.1) = false := by simpa using h
      simp [List.lookup, hb, ih]

lemma lookup_filter_of_none (base overlay : EnvMap) (k : String)
    (h : overlay.lookup k = none) :
    (base.filter (fun kv => (List.lookup kv.1 overlay).isNone)).lookup k = base.lookup k := by
  induction base with
  | nil => rfl
  | cons kv rest ih =>
    by_cases hk : k = kv.1
    · have hcond : (List.lookup kv.1 overlay).isNone = true := by rw [← hk, h]; rfl
      have hb : (k == kv.1) = true := by simpa using hk
      simp [List.filter, hcond, List.lookup, hb]
    · have hb : (k == kv.1) = false := by simpa using hk
      by_cases hkeep : (List.lookup kv.1 overlay).isNone = true
      · simp [List.filter, hkeep, List.lookup, hb, ih]
      · simp only [Bool.not_eq_true] at hkeep
        simp [List.filter, hkeep, List.lookup, hb, ih]

lemma lookup_filter_of_some (base overlay : EnvMap) (k : String) (v : String)
    (h : overlay.lookup k = some v) :
    (base.filter (fun kv => (List.lookup kv.1 overlay).isNone)).lookup k = none := by
  induction base with
  | nil => rfl
  | cons kv rest ih =>
    by_cases hk : k = kv.1
    · have hcond : (List.lookup kv.1 overlay).isNone = false := by rw [← hk, h]; rfl
      simp [List.filter, hcond, ih]
    · have hb : (k == kv.1) = false := by simpa using hk
      by_cases hkeep : (List.lookup kv.1 overlay).isNone = true
      · simp [List.filter, hkeep, List.lookup, hb, ih]
      · simp only [Bool.not_eq_true] at hkeep
        simp [List.filter, hkeep, ih]

/-- Lookup in an updated dictionary: the overlay wins on its own keys,
the base answers otherwise — exactly Python `dict.update` semantics. -/
lemma lookup_dictUpdate (base overlay : EnvMap) (k : String) :
    envLookup (dictUpdate base overlay) k =
      (envLookup overlay k).orElse (fun _ => envLookup base k) := by
  unfold dictUpdate envLookup
  rw [lookup_append]
  cases h : overlay.lookup k with
  | none =>
    rw [lookup_filter_of_none base overlay k h]
    cases hb : base.lookup k <;> simp [Option.orElse, h, hb]
  | some v =>
    rw [lookup_filter_of_some base overlay k v h]
    simp [Option.orElse, h]

/-- One step of a traversal plan (`PlanAction` dataclass): the branch to
visit and the parent used to seed `SD_PARENT_BRANCH`. -/
structure PlanAction where
  branch : String
  parent : String
deriving DecidableEq

/-- The branch graph (`Graph` dataclass restricted to the fields the engine
reads): the trunk name and the tracked branches with their ordered children
lists, in insertion order (Python `dict` preserves insertion order). -/
structure SdGraph where
  trunk : String
  branches : List (String × List String)
deriving DecidableEq

/-- Models `git.find_parent`: the first tracked branch (in insertion order) whose
`children` list contains `branch_name`, if any. -/
def findParent (g : SdGraph) (b : String) : Option String :=
  (g.branches.find? (fun p => p.2.contains b)).map (·.1)

/-- Python `x or d` for an optional string: `None` and the empty string are
falsy and fall through to the default. -/
def pyStrOr (x : Option String) (d : String) : String :=
  match x with
  | some s => if s = "" then d else s
  | none => d

/-- Models `_get_children_for_traversal`: children of the trunk are the tracked
branches with no parent (stack roots, in insertion order); a tracked branch
contributes its own children list; anything else has none. -/
def childrenForTraversal (g : SdGraph) (b : String) : List String :=
  if b = g.trunk then
    (g.branches.filter (fun p => (findParent g p.1).isNone)).map (·.1)
  else
    match g.branches.lookup b with
    | some cs => cs
    | none => []

/-- All branch names the graph metadata can ever hand to the traversal:
tracked branch names together with every name in a children list. -/
def graphUniverse (g : SdGraph) : Finset String :=
  (g.branches.map (·.1)).toFinset ∪ ((g.branches.map (·.2)).flatten).toFinset

/-- Branch names currently on the BFS queue, as a finite set. -/
def queueBranchSet (q : List PlanAction) : Finset String :=
  (q.map (·.branch)).toFinset

lemma lookup_mem {α β : Type} [BEq α] [LawfulBEq α] {l : List (α × β)} {k : α} {v : β}
    (h : l.lookup k = some v) : (k, v) ∈ l := by
  induction l with
  | nil => simp [List.lookup] at h
  | cons kv rest ih =>
    rw [List.lookup] at h
    cases hk : (k == kv.1) with
    | true =>
      rw [hk] at h
      have hkk : k = kv.1 := by simpa using hk
      cases h
      rw [hkk]
      simp
    | false =>
      rw [hk] at h
      right
      exact ih h

lemma childrenForTraversal_subset (g : SdGraph) (b : String) :
    ∀ c ∈ childrenForTraversal g b, c ∈ graphUniverse g := by
  intro c hc
  unfold childrenForTraversal at hc
  by_cases hb : b = g.trunk
  · simp only [hb, if_pos rfl] at hc
    rcases List.mem_map.mp hc with ⟨p, hp, hpc⟩
    have : p ∈ g.branches := List.mem_of_mem_filter hp
    exact Finset.mem_union_left _ (List.mem_toFinset.mpr (List.mem_map.mpr ⟨p, this, hpc⟩))
  · rw [if_neg hb] at hc
    cases hlook : g.branches.lookup b with
    | none => rw [hlook] at hc; simp at hc
    | some cs =>
      rw [hlook] at hc
      have hmem : (b, cs) ∈ g.branches := lookup_mem hlook
      refine Finset.mem_union_right _ (List.mem_toFinset.mpr ?_)
      exact List.mem_flatten.mpr ⟨cs, List.mem_map.mpr ⟨(b, cs), hmem, rfl⟩, hc⟩

lemma queueBranchSet_cons (a : PlanAction) (q : List PlanAction) :
    queueBranchSet (a :: q) = insert a.branch (queueBranchSet q) := by
  simp [queueBranchSet]

lemma queueBranchSet_append (q₁ q₂ : List PlanAction) :
    queueBranchSet (q₁ ++ q₂) = queueBranchSet q₁ ∪ queueBranchSet q₂ := by
  simp [queueBranchSet]

/-- The BFS loop of `_build_traversal_plan`: pop the head of the queue, skip
it if already visited, otherwise emit it and enqueue its traversal children
(FIFO, in children-list order).  The emitted list is the plan, in visit
order, matching the Python loop's `plan.append` accumulation. -/
def bfsPlan (g : SdGraph) (q : List PlanAction) (visited : Finset String) :
    List PlanAction :=
  match q with
  | [] => []
  | a :: rest =>
    if a.branch ∈ visited then
      bfsPlan g rest visited
    else
      a :: bfsPlan g
        (rest ++ ((childrenForTraversal g a.branch).filter
            (fun c => decide (c ∉ insert a.branch visited))).map (fun c => ⟨c, a.branch⟩))
        (insert a.branch visited)
termination_by
  (((queueBranchSet q ∪ graphUniverse g) \ visited).card, q.length)
decreasing_by
  · have hsub : (queueBranchSet rest ∪ graphUniverse g) \ visited ⊆
        (queueBranchSet (a :: rest) ∪ graphUniverse g) \ visited := by
      apply Finset.sdiff_subset_sdiff _ (le_refl _)
      apply Finset.union_subset_union_left
      rw [queueBranchSet_cons]
      exact Finset.subset_insert _ _
    have hle := Finset.card_le_card hsub
    rcases lt_or_eq_of_le hle with hlt | heq
    · exact Prod.Lex.left _ _ hlt
    · rw [heq]
      exact Prod.Lex.right _ (Nat.lt_succ_self _)
  · apply Prod.Lex.left
    apply Finset.card_lt_card
    constructor
    · intro x hx
      rcases Finset.mem_sdiff.mp hx with ⟨hxin, hxout⟩
      refine Finset.mem_sdiff.mpr ⟨?_, fun hxv => hxout (Finset.mem_insert_of_mem hxv)⟩
      rcases Finset.mem_union.mp hxin with hq | hu
      · rw [queueBranchSet_append] at hq
        rcases Finset.mem_union.mp hq with hr | hk
        · refine Finset.mem_union_left _ ?_
          rw [queueBranchSet_cons]
          exact Finset.mem_insert_of_mem hr
        · refine Finset.mem_union_right _ ?_
          have hx' : x ∈ (childrenForTraversal g a.branch).filter
              (fun c => decide (c ∉ insert a.branch visited)) := by
            simpa [queueBranchSet] using hk
          exact childrenForTraversal_subset g a.branch x (List.mem_of_mem_filter hx')
      · exact Finset.mem_union_right _ hu
    · intro hall
      have hmem : a.branch ∈ (queueBranchSet (a :: rest) ∪ graphUniverse g) \ visited := by
        refine Finset.mem_sdiff.mpr ⟨?_, by assumption⟩
        refine Finset.mem_union_left _ ?_
        rw [queueBranchSet_cons]
        exact Finset.mem_insert_self _ _
      have := hall hmem
      rcases Finset.mem_sdiff.mp this with ⟨_, hniv⟩
      exact hniv (Finset.mem_insert_self _ _)

/-- Models `_build_traversal_plan`: seed the queue with the start branch (parent
`find_parent(start) or trunk`, Python truthiness) in full mode, or with the
start branch's traversal children in `descendants_only` mode, then run BFS
with an empty visited set. -/
def buildPlan (g : SdGraph) (start : String) (descendants_only : Bool) :
    List PlanAction :=
  if descendants_only then
    bfsPlan g ((childrenForTraversal g start).map (fun c => ⟨c, start⟩)) ∅
  else
    bfsPlan g [⟨start, pyStrOr (findParent g start) g.trunk⟩] ∅

/-- The branch names of a plan, in plan order. -/
def planBranches (l : List PlanAction) : List String :=
  l.map (·.branch)

/-- One edge of the traversal's children relation. -/
def stepRel (g : SdGraph) (a b : String) : Prop :=
  b ∈ childrenForTraversal g a

/-- Reachability along the traversal's children relation (zero or more edges). -/
def Reach (g : SdGraph) : String → String → Prop :=
  Relation.ReflTransGen (stepRel g)

lemma planBranches_cons (a : PlanAction) (l : List PlanAction) :
    planBranches (a :: l) = a.branch :: planBranches l :=
  rfl

lemma bfsPlan_skip (g : SdGraph) (a : PlanAction) (rest : List PlanAction)
    (visited : Finset String) (h : a.branch ∈ visited) :
    bfsPlan g (a :: rest) visited = bfsPlan g rest visited := by
  rw [bfsPlan]
  simp [h]

lemma bfsPlan_visit (g : SdGraph) (a : PlanAction) (rest : List PlanAction)
    (visited : Finset String) (h : a.branch ∉ visited) :
    bfsPlan g (a :: rest) visited =
      a :: bfsPlan g
        (rest ++ ((childrenForTraversal g a.branch).filter
            (fun c => decide (c ∉ insert a.branch visited))).map (fun c => ⟨c, a.branch⟩))
        (insert a.branch visited) := by
  rw [bfsPlan]
  simp [h]

/-- Every branch the BFS emits satisfies any children-closed predicate that
holds on the queue. -/
lemma bfs_mem_pred (g : SdGraph) (P : String → Prop)
    (hP : ∀ x, P x → ∀ c ∈ childrenForTraversal g x, P c) :
    ∀ (q : List PlanAction) (visited : Finset String),
      (∀ a ∈ q, P a.branch) → ∀ z ∈ planBranches (bfsPlan g q visited), P z := by
  intro q visited
  induction q, visited using bfsPlan.induct g with
  | case1 visited =>
    intro _ z hz
    rw [bfsPlan] at hz
    simp [planBranches] at hz
  | case2 visited a rest hmem ih =>
    intro hq z hz
    rw [bfsPlan_skip g a rest visited hmem] at hz
    exact ih (fun x hx => hq x (List.mem_cons_of_mem _ hx)) z hz
  | case3 visited a rest hmem ih =>
    intro hq z hz
    rw [bfsPlan_visit g a rest visited hmem, planBranches_cons] at hz
    have hPa : P a.branch := hq a (List.mem_cons_self _ _)
    rcases List.mem_cons.mp hz with hza | hzr
    · rw [hza]; exact hPa
    · refine ih ?_ z hzr
      intro x hx
      rcases List.mem_append.mp hx with hxr | hxk
      · exact hq x (List.mem_cons_of_mem _ hxr)
      · rcases List.mem_map.mp hxk with ⟨c, hc, hcx⟩
        have : x.branch = c := by rw [← hcx]
        rw [this]
        exact hP a.branch hPa c (List.mem_of_mem_filter hc)

/-- Every branch on the queue is either already visited or eventually emitted. -/
lemma bfs_queue_complete (g : SdGraph) :
    ∀ (q : List PlanAction) (visited : Finset String),
      ∀ a ∈ q, a.branch ∈ visited ∨ a.branch ∈ planBranches (bfsPlan g q visited) := by
  intro q visited
  induction q, visited using bfsPlan.induct g with
  | case1 visited => intro a ha; simp at ha
  | case2 visited a rest hmem ih =>
    intro x hx
    rw [bfsPlan_skip g a rest visited hmem]
    rcases List.mem_cons.mp hx with hxa | hxr
    · rw [hxa]; exact Or.inl hmem
    · exact ih x hxr
  | case3 visited a rest hmem ih =>
    intro x hx
    rw [bfsPlan_visit g a rest visited hmem, planBranches_cons]
    rcases List.mem_cons.mp hx with hxa | hxr
    · right; rw [hxa]; exact List.mem_cons_self _ _
    · rcases ih x (List.mem_append_left _ hxr) with hv | hp
      · rcases Finset.mem_insert.mp hv with hva | hvv
        · right; rw [hva]; exact List.mem_cons_self _ _
        · exact Or.inl hvv
      · right; exact List.mem_cons_of_mem _ hp

/-- The emitted set is closed under the children relation, up to the initial
visited set. -/
lemma bfs_closed (g : SdGraph) :
    ∀ (q : List PlanAction) (visited : Finset String),
      ∀ z ∈ planBranches (bfsPlan g q visited), ∀ c ∈ childrenForTraversal g z,
        c ∈ visited ∨ c ∈ planBranches (bfsPlan g q visited) := by
  intro q visited
  induction q, visited using bfsPlan.induct g with
  | case1 visited =>
    intro z hz
    rw [bfsPlan] at hz
    simp [planBranches] at hz
  | case2 visited a rest hmem ih =>
    intro z hz c hc
    rw [bfsPlan_skip g a rest visited hmem] at hz ⊢
    exact ih z hz c hc
  | case3 visited a rest hmem ih =>
    intro z hz c hc
    rw [bfsPlan_visit g a rest visited hmem, planBranches_cons] at hz ⊢
    have hsplit :
        c ∈ insert a.branch visited ∨
          c ∈ planBranches (bfsPlan g
            (rest ++ ((childrenForTraversal g a.branch).filter
                (fun c => decide (c ∉ insert a.branch visited))).map
              (fun c => ⟨c, a.branch⟩))
            (insert a.branch visited)) := by
      rcases List.mem_cons.mp hz with hza | hzr
      · by_cases hcv : c ∈ insert a.branch visited
        · exact Or.inl hcv
        · refine bfs_queue_complete g _ _ ⟨c, a.branch⟩ ?_
          refine List.mem_append_right _ ?_
          refine List.mem_map.mpr ⟨c, ?_, rfl⟩
          refine List.mem_filter.mpr ⟨?_, decide_eq_true hcv⟩
          rw [← hza]
          exact hc
      · exact ih z hzr c hc
    rcases hsplit with hv | hp
    · rcases Finset.mem_insert.mp hv with hca | hcv
      · right; rw [hca]; exact List.mem_cons_self _ _
      · exact Or.inl hcv
    · right; exact List.mem_cons_of_mem _ hp

/-- The BFS never emits a branch twice, and never emits an initially
visited branch. -/
lemma bfs_nodup (g : SdGraph) :
    ∀ (q : List PlanAction) (visited : Finset String),
      (planBranches (bfsPlan g q visited)).Nodup ∧
        ∀ z ∈ planBranches (bfsPlan g q visited), z ∉ visited := by
  intro q visited
  induction q, visited using bfsPlan.induct g with
  | case1 visited =>
    rw [bfsPlan]
    simp [planBranches]
  | case2 visited a rest hmem ih =>
    rw [bfsPlan_skip g a rest visited hmem]
    exact ih
  | case3 visited a rest hmem ih =>
    rw [bfsPlan_visit g a rest visited hmem, planBranches_cons]
    constructor
    · refine List.nodup_cons.mpr ⟨?_, ih.1⟩
      intro hcontra
      have := ih.2 a.branch hcontra
      exact this (Finset.mem_insert_self _ _)
    · intro z hz
      rcases List.mem_cons.mp hz with hza | hzr
      · rw [hza]; exact hmem
      · intro hzv
        exact ih.2 z hzr (Finset.mem_insert_of_mem hzv)

/-- Everything reachable from a queued branch is emitted when starting from
an empty visited set. -/
lemma bfs_reach_complete (g : SdGraph) (q : List PlanAction) (x z : String)
    (hx : ∃ a ∈ q, a.branch = x) (hreach : Reach g x z) :
    z ∈ planBranches (bfsPlan g q ∅) := by
  induction hreach with
  | refl =>
    rcases hx with ⟨a, ha, hab⟩
    rcases bfs_queue_complete g q ∅ a ha with hv | hp
    · simp at hv
    · rw [← hab]; exact hp
  | tail _hr hstep ih =>
    rcases bfs_closed g q ∅ _ ih _ hstep with hv | hp
    · simp at hv
    · exact hp

/-- Exact characterization of BFS output from an empty visited set:
the branches emitted are precisely those reachable from the queue. -/
lemma mem_bfs_iff (g : SdGraph) (q : List PlanAction) (z : String) :
    z ∈ planBranches (bfsPlan g q ∅) ↔ ∃ a ∈ q, Reach g a.branch z := by
  constructor
  · refine bfs_mem_pred g (fun y => ∃ a ∈ q, Reach g a.branch y) ?_ q ∅ ?_ z
    · rintro y ⟨a, ha, hr⟩ c hc
      exact ⟨a, ha, hr.tail hc⟩
    · intro a ha
      exact ⟨a, ha, Relation.ReflTransGen.refl⟩
  · rintro ⟨a, ha, hr⟩
    exact bfs_reach_complete g q a.branch z ⟨a, ha, rfl⟩ hr

/-- A plan is parent-closed relative to a set of allowed seed parents:
each step's parent is an allowed name or the branch of a strictly earlier
step. -/
def ParentClosed : List String → List PlanAction → Prop
  | _, [] => True
  | allowed, a :: rest => a.parent ∈ allowed ∧ ParentClosed (a.branch :: allowed) rest

lemma parentClosed_bfs (g : SdGraph) :
    ∀ (q : List PlanAction) (visited : Finset String) (allowed : List String),
      (∀ a ∈ q, a.parent ∈ allowed) → ParentClosed allowed (bfsPlan g q visited) := by
  intro q visited
  induction q, visited using bfsPlan.induct g with
  | case1 visited =>
    intro allowed _
    rw [bfsPlan]
    trivial
  | case2 visited a rest hmem ih =>
    intro allowed hq
    rw [bfsPlan_skip g a rest visited hmem]
    exact ih allowed (fun x hx => hq x (List.mem_cons_of_mem _ hx))
  | case3 visited a rest hmem ih =>
    intro allowed hq
    rw [bfsPlan_visit g a rest visited hmem]
    refine ⟨hq a (List.mem_cons_self _ _), ?_⟩
    refine ih (a.branch :: allowed) ?_
    intro x hx
    rcases List.mem_append.mp hx with hxr | hxk
    · exact List.mem_cons_of_mem _ (hq x (List.mem_cons_of_mem _ hxr))
    · rcases List.mem_map.mp hxk with ⟨c, _hc, hcx⟩
      have hxp : x.parent = a.branch := by rw [← hcx]
      rw [hxp]
      exact List.mem_cons_self _ _

/-- The persisted resumption state (`ResumeState` dataclass / the Checkpoint). -/
structure ResumeState where
  operation : String
  start_branch : String
  user_command : String
  plan : List PlanAction
  alias_name : String
  env_vars : EnvMap
  post_flight_cmd : Option String
deriving DecidableEq

/-- Which engine call site ran a shell command. -/
inductive ShellKind where
  | preFlight
  | step
  | postFlight
  | remediation
deriving DecidableEq

/-- Observable side effects of the engine, in execution order: branch
checkouts (`git checkout`), shell invocations (`run_shell_command` with its
environment and success flag), graph persistence (`mm.save_graph`, also the
save inside `save_resume_state`/`clear_resume_state`), and Checkpoint writes
(`mm.save_resume_state`). -/
inductive Event where
  | checkout (branch : String)
  | shell (kind : ShellKind) (cmd : String) (env : EnvMap) (ok : Bool)
  | saveGraph
  | saveResume (rs : ResumeState)
deriving DecidableEq

def Event.isSaveResume : Event → Bool
  | .saveResume _ => true
  | _ => false

def Event.isRemediationShell : Event → Bool
  | .shell .remediation _ _ _ => true
  | _ => false

/-- Events that mutate the repository or the persisted metadata. -/
def Event.isWrite : Event → Bool
  | .checkout _ => true
  | .saveGraph => true
  | .saveResume _ => true
  | .shell _ _ _ _ => false

/-- Engine-visible state: the checked-out branch, the persisted Checkpoint
(`resume_state` inside the graph file), and the effect log so far. -/
structure EngState where
  branch : String
  resume : Option ResumeState
  log : List Event
deriving DecidableEq

/-- Result of an engine entry point: normal return, `sys.exit(code)`, or
divergence of the (unguarded) `find_stack_root` upward walk. -/
inductive Outcome where
  | ok (s : EngState)
  | exited (code : Nat) (s : EngState)
  | diverge (s : EngState)
deriving DecidableEq

def Outcome.log : Outcome → List Event
  | .ok s => s.log
  | .exited _ s => s.log
  | .diverge s => s.log

/-- Shell oracle: the success flag `run_shell_command(cmd, env)` reports. -/
abbrev ShellOracle := String → EnvMap → Bool

def logEvent (s : EngState) (e : Event) : EngState :=
  { s with log := s.log ++ [e] }

/-- Models `run_command([git, "checkout", b])`. -/
def doCheckout (s : EngState) (b : String) : EngState :=
  { branch := b, resume := s.resume, log := s.log ++ [Event.checkout b] }

/-- Models `mm.save_resume_state(rs)`: loads the graph, sets `resume_state`, saves. -/
def doSaveResume (s : EngState) (rs : ResumeState) : EngState :=
  { branch := s.branch, resume := some rs,
    log := s.log ++ [Event.saveResume rs, Event.saveGraph] }

/-- Models `mm.clear_resume_state()`: saves the graph only when a Checkpoint exists. -/
def doClearResume (s : EngState) : EngState :=
  match s.resume with
  | some _ => { branch := s.branch, resume := none, log := s.log ++ [Event.saveGraph] }
  | none => s

/-- Models `mm.save_graph(graph)`. -/
def doSaveGraph (s : EngState) : EngState :=
  { s with log := s.log ++ [Event.saveGraph] }

/-- The per-step environment of `_process_plan` (lines 261-266): the three
context variables, then `update`d with the composed custom environment. -/
def stepEnv (action : PlanAction) (trunk : String) (custom : EnvMap) : EnvMap :=
  dictUpdate
    [("SD_CURRENT_BRANCH", action.branch),
     ("SD_PARENT_BRANCH", action.parent),
     ("SD_TRUNK_BRANCH", trunk)]
    custom

/-- The remediation environment of `_handle_continue_abort` (lines 114-115):
`{"SD_CURRENT_BRANCH": current}` then `update`d with the saved env vars. -/
def remediationEnv (current : String) (saved : EnvMap) : EnvMap :=
  dictUpdate [("SD_CURRENT_BRANCH", current)] saved

/-- The hook environment of `_run_pre_flight`/`_run_post_flight`:
`{"SD_TRUNK_BRANCH": trunk, "SD_START_BRANCH": start}` updated with the
composed environment. -/
def flightEnv (trunk start_branch : String) (envv : EnvMap) : EnvMap :=
  dictUpdate [("SD_TRUNK_BRANCH", trunk), ("SD_START_BRANCH", start_branch)] envv

/-- Models `_run_pre_flight`: run the hook; a failure exits with code 1. -/
def runPreFlight (sh : ShellOracle) (cmd trunk start_branch : String)
    (envv : EnvMap) (s : EngState) : Outcome :=
  let env := flightEnv trunk start_branch envv
  let ok := sh cmd env
  let s := logEvent s (.shell .preFlight cmd env ok)
  if ok then .ok s else .exited 1 s

/-- Models `_run_post_flight`: run the hook; a failure exits with code 1. -/
def runPostFlight (sh : ShellOracle) (cmd trunk start_branch : String)
    (envv : EnvMap) (s : EngState) : Outcome :=
  let env := flightEnv trunk start_branch envv
  let ok := sh cmd env
  let s := logEvent s (.shell .postFlight cmd env ok)
  if ok then .ok s else .exited 1 s

/-- Models `_perform_cleanup`: check out `start_branch` when elsewhere, clear the
Checkpoint, and re-save the graph (pause markers removed). -/
def performCleanup (s : EngState) (start_branch : String) : EngState :=
  let s1 := if s.branch = start_branch then s else doCheckout s start_branch
  doSaveGraph (doClearResume s1)

/-- The shared completion path (`_handle_new_run` lines 223-230,
`_handle_continue_abort` lines 143-155): run the post-flight hook if
present — its failure exits 1 — then perform cleanup. -/
def finishOperation (sh : ShellOracle) (post_flight_cmd : Option String)
    (trunk start_branch : String) (envv : EnvMap) (s : EngState) : Outcome :=
  match post_flight_cmd with
  | some pf =>
    match runPostFlight sh pf trunk start_branch envv s with
    | .ok s' => .ok (performCleanup s' start_branch)
    | o => o
  | none => .ok (performCleanup s start_branch)

/-- Models `_process_plan`: drain the queue; before each step build the Checkpoint
from the *remaining* queue, check out the step's branch, run the user
command under the per-step environment, and on failure persist the
Checkpoint and exit 1. -/
def processPlan (sh : ShellOracle) (plan : List PlanAction) (user_command : String)
    (trunk start_branch alias_name : String) (custom : EnvMap)
    (post_flight_cmd : Option String) (s : EngState) : Outcome :=
  match plan with
  | [] => .ok s
  | action :: queue =>
    let rs : ResumeState :=
      ⟨"run", start_branch, user_command, queue, alias_name, custom, post_flight_cmd⟩
    let env := stepEnv action trunk custom
    let s := doCheckout s action.branch
    let ok := sh user_command env
    let s := logEvent s (.shell .step user_command env ok)
    if ok then
      processPlan sh queue user_command trunk start_branch alias_name custom
        post_flight_cmd s
    else
      .exited 1 (doSaveResume s rs)

/-- The continue/abort flag: Python `None` / bare `--continue` (`True`) / a
remediation string. -/
inductive RunFlag where
  | notRequested
  | requested
  | withOverride (cmd : String)
deriving DecidableEq

/-- Python truthiness of the flag value (`None` and `""` are falsy). -/
def RunFlag.truthy : RunFlag → Bool
  | .notRequested => false
  | .requested => true
  | .withOverride cmd => cmd ≠ ""

/-- Models the `CommandConfig` dataclass. -/
structure CommandConfig where
  run : Option String := none
  descendants_only : Bool := false
  pre_flight : Option String := none
  post_flight : Option String := none
  start_from_root : Bool := false
deriving DecidableEq

/-- Models the `Alias` dataclass (the fields the engine reads). -/
structure Alias where
  description : String := ""
  command : CommandConfig := {}
  continue_cmd : Option String := none
  abort_cmd : Option String := none
  env : EnvMap := []
deriving DecidableEq

/-- Models the `RunArgs` dataclass. -/
structure RunArgs where
  command_string : Option String := none
  pre_flight_cmd : Option String := none
  post_flight_cmd : Option String := none
  continue_run : RunFlag := .notRequested
  abort_run : RunFlag := .notRequested
  cli_env_vars : Option EnvMap := none
  command_name : String := "run"
deriving DecidableEq

/-- Python truthiness of `cli_env_vars` (`None` and `{}` are falsy). -/
def cliEnvTruthy : Option EnvMap → Bool
  | some l => !l.isEmpty
  | none => false

/-- Remediation command resolution of `_handle_continue_abort`
(lines 94-110): a user-provided string wins; otherwise the alias's
`continue_cmd`/`abort_cmd` when truthy (non-`None`, non-empty); otherwise
the literal no-op `"true"`. -/
def resolveRemediation (isCont : Bool) (contFlag abortFlag : RunFlag)
    (aliasDef : Option Alias) : String :=
  if isCont then
    match contFlag with
    | .withOverride cmd => cmd
    | _ => pyStrOr (aliasDef.bind (·.continue_cmd)) "true"
  else
    match abortFlag with
    | .withOverride cmd => cmd
    | _ => pyStrOr (aliasDef.bind (·.abort_cmd)) "true"

/-- Models `_handle_continue_abort`: resolve and run the remediation command once;
on continue, a remediation failure re-saves the Checkpoint and exits 1,
otherwise the saved plan is resumed; then (for both continue and abort) the
saved post-flight hook runs and cleanup is performed. -/
def handleContinueAbort (sh : ShellOracle) (graph : SdGraph)
    (aliasLookup : String → Option Alias) (args : RunArgs) (rs : ResumeState)
    (s : EngState) : Outcome :=
  let original_alias_def := aliasLookup rs.alias_name
  let saved := rs.env_vars
  let isCont := args.continue_run.truthy
  let remediation_cmd :=
    resolveRemediation isCont args.continue_run args.abort_run original_alias_def
  let remEnv := remediationEnv s.branch saved
  let remOk := sh remediation_cmd remEnv
  let s := logEvent s (.shell .remediation remediation_cmd remEnv remOk)
  if isCont then
    if remOk then
      match processPlan sh rs.plan rs.user_command graph.trunk rs.start_branch
          rs.alias_name saved rs.post_flight_cmd s with
      | .ok s' =>
        finishOperation sh rs.post_flight_cmd graph.trunk rs.start_branch saved s'
      | o => o
    else
      .exited 1 (doSaveResume s rs)
  else
    finishOperation sh rs.post_flight_cmd graph.trunk rs.start_branch saved s

/-- The upward-walk loop body of `git.find_stack_root` (lines 100-105),
with explicit fuel: `none` means the loop has not returned within `fuel`
iterations. -/
def findRootLoop (g : SdGraph) : Nat → String → Option String
  | 0, _ => none
  | fuel + 1, cur =>
    match findParent g cur with
    | none => some cur
    | some p => if p = g.trunk then some cur else findRootLoop g fuel p

/-- Models `git.find_stack_root`: the trunk and untracked branches are returned
unchanged; otherwise the upward walk runs.  A terminating walk never
revisits a branch (the walk is deterministic), so `branches.length + 1`
iterations suffice; `none` therefore means the Python loop never
terminates. -/
def findStackRoot (g : SdGraph) (b : String) : Option String :=
  if b = g.trunk ∨ (g.branches.lookup b).isNone then some b
  else findRootLoop g (g.branches.length + 1) b

/-- The `descendants_only` flag of `_handle_new_run` (line 183). -/
def descOnlyOf : Option Alias → Bool
  | some a => a.command.descendants_only
  | none => false

/-- The `start_from_root` flag of `_handle_new_run` (line 184). -/
def startFromRootOf : Option Alias → Bool
  | some a => a.command.start_from_root
  | none => false

/-- The effective plan start of `_handle_new_run` (lines 186-189):
`find_stack_root` when `start_from_root` and the start is tracked. -/
def planStartOf (g : SdGraph) (start_from_root : Bool) (start : String) :
    Option String :=
  if start_from_root then
    if (g.branches.lookup start).isSome then findStackRoot g start
    else some start
  else some start

/-- Models `_handle_new_run`: optional pre-flight (failure aborts), plan start
resolution, plan construction; an empty plan runs the post-flight hook and
cleanup only when a post-flight command exists and saves nothing otherwise;
a non-empty plan is persisted (graph save) and executed, then the shared
completion path runs. -/
def handleNewRun (sh : ShellOracle) (graph : SdGraph) (args : RunArgs)
    (aliasDef : Option Alias) (env_vars : EnvMap) (user_command : String)
    (pre_flight_cmd post_flight_cmd : Option String) (s : EngState) : Outcome :=
  let start_branch := s.branch
  let afterPre : Outcome :=
    match pre_flight_cmd with
    | some pf => runPreFlight sh pf graph.trunk start_branch env_vars s
    | none => .ok s
  match afterPre with
  | .ok s =>
    let descendants_only := descOnlyOf aliasDef
    let start_from_root := startFromRootOf aliasDef
    match planStartOf graph start_from_root start_branch with
    | none => .diverge s
    | some plan_start =>
      let plan := buildPlan graph plan_start descendants_only
      if plan.isEmpty then
        match post_flight_cmd with
        | some pf =>
          match runPostFlight sh pf graph.trunk start_branch env_vars s with
          | .ok s' => .ok (performCleanup s' start_branch)
          | o => o
        | none => .ok s
      else
        let s := doSaveGraph s
        match processPlan sh plan user_command graph.trunk start_branch
            args.command_name env_vars post_flight_cmd s with
        | .ok s' =>
          finishOperation sh post_flight_cmd graph.trunk start_branch env_vars s'
        | o => o
  | o => o

/-- Models `handle_run`: compose the custom environment (alias defaults updated
with CLI overrides), then dispatch.  Continue/abort with CLI environment
variables, or with no Checkpoint, exits 1 untouched; a new run with an
existing Checkpoint exits 1 untouched. -/
def handleRun (sh : ShellOracle) (graph : SdGraph)
    (aliasLookup : String → Option Alias) (args : RunArgs)
    (aliasDef : Option Alias) (s : EngState) : Outcome :=
  let aliasEnv := match aliasDef with | some a => a.env | none => []
  let cliEnv := match args.cli_env_vars with | some e => e | none => []
  let env_vars := dictUpdate aliasEnv cliEnv
  let user_command :=
    match aliasDef with
    | some a => a.command.run
    | none => args.command_string
  let pre_flight_cmd :=
    match aliasDef with
    | some a => a.command.pre_flight
    | none => args.pre_flight_cmd
  let post_flight_cmd :=
    match aliasDef with
    | some a => a.command.post_flight
    | none => args.post_flight_cmd
  if args.continue_run.truthy || args.abort_run.truthy then
    if cliEnvTruthy args.cli_env_vars then .exited 1 s
    else
      match s.resume with
      | none => .exited 1 s
      | some rs => handleContinueAbort sh graph aliasLookup args rs s
  else
    match s.resume with
    | some _ => .exited 1 s
    | none =>
      handleNewRun sh graph args aliasDef env_vars (user_command.getD "")
        pre_flight_cmd post_flight_cmd s

/-- The spec's example graph: trunk `main`, `A` with child `B`, `B` a leaf. -/
def exGraph : SdGraph := ⟨"main", [("A", ["B"]), ("B", [])]⟩

/-- A hand-edited cyclic graph: `A`'s children contain `B` and `B`'s children
contain `A`, so `find_parent A = B` and `find_parent B = A`. -/
def cycGraph : SdGraph := ⟨"main", [("A", ["B"]), ("B", ["A"])]⟩

/-- C1 counterexample: in `_process_plan` the composed custom environment is
`update`d over the three context variables, so a custom key named
`SD_CURRENT_BRANCH` shadows the per-step context value — the user command
sees the custom value, not the step's branch. -/
theorem claim1_counterexample :
    envLookup
      (stepEnv ⟨"feature-a", "main"⟩ "main" [("SD_CURRENT_BRANCH", "custom-value")])
      "SD_CURRENT_BRANCH" = some "custom-value" ∧
    ("custom-value" : String) ≠ "feature-a" := by
  constructor
  · rfl
  · decide

/-- C1 amended: the per-step environment is the three context variables
`SD_CURRENT_BRANCH`/`SD_PARENT_BRANCH`/`SD_TRUNK_BRANCH` overlaid (last,
with highest precedence) by the composed custom environment: a key's value
is the custom one when the custom environment binds it, and the per-step
context value otherwise. -/
theorem claim1_amended (action : PlanAction) (trunk : String) (custom : EnvMap)
    (k : String) :
    envLookup (stepEnv action trunk custom) k =
      (envLookup custom k).orElse (fun _ =>
        envLookup
          [("SD_CURRENT_BRANCH", action.branch),
           ("SD_PARENT_BRANCH", action.parent),
           ("SD_TRUNK_BRANCH", trunk)] k) :=
  lookup_dictUpdate _ _ _

/-- C8: in the remediation environment of `_handle_continue_abort` the
Checkpoint's saved `env_vars` are overlaid after the `SD_CURRENT_BRANCH`
context entry, so a saved key of that name wins over the branch checked out
at invocation time. -/
theorem claim8_saved_env_wins (current : String) (saved : EnvMap) (v : String)
    (h : envLookup saved "SD_CURRENT_BRANCH" = some v) :
    envLookup (remediationEnv current saved) "SD_CURRENT_BRANCH" = some v := by
  unfold remediationEnv
  rw [lookup_dictUpdate]
  rw [show envLookup saved "SD_CURRENT_BRANCH" = some v from h]
  rfl

theorem claim8_witness :
    envLookup (remediationEnv "now-branch" [("SD_CURRENT_BRANCH", "saved-branch")])
        "SD_CURRENT_BRANCH" = some "saved-branch" ∧
      some "saved-branch" ≠ some "now-branch" :=
  ⟨claim8_saved_env_wins "now-branch" [("SD_CURRENT_BRANCH", "saved-branch")]
      "saved-branch" rfl,
    by decide⟩

lemma findRootLoop_cyc (fuel : Nat) :
    findRootLoop cycGraph fuel "A" = none ∧ findRootLoop cycGraph fuel "B" = none := by
  induction fuel with
  | zero => exact ⟨rfl, rfl⟩
  | succ n ih =>
    have hA : findParent cycGraph "A" = some "B" := rfl
    have hB : findParent cycGraph "B" = some "A" := rfl
    constructor
    · rw [findRootLoop, hA]
      simpa using ih.2
    · rw [findRootLoop, hB]
      simpa using ih.1

/-- C4 (code bug exhibited): on the hand-edited cycle `A ↔ B` the upward
walk of `find_stack_root` never returns — within every fuel bound the loop
is still running — while the trunk and untracked branches are returned
unchanged as the claim states.  The spec requires termination on every
graph, so the unguarded `while True` walk is the bug. -/
theorem claim4_code_bug :
    (∀ fuel, findRootLoop cycGraph fuel "A" = none) ∧
    findStackRoot cycGraph "A" = none ∧
    findStackRoot cycGraph "main" = some "main" ∧
    findStackRoot cycGraph "untracked" = some "untracked" := by
  refine ⟨fun fuel => (findRootLoop_cyc fuel).1, ?_, ?_, ?_⟩
  · have hcond : ¬("A" = cycGraph.trunk ∨ (cycGraph.branches.lookup "A").isNone) := by
      decide
    rw [findStackRoot, if_neg hcond]
    exact (findRootLoop_cyc (cycGraph.branches.length + 1)).1
  · rfl
  · rfl

lemma mem_buildPlan_false_iff (g : SdGraph) (start z : String) :
    z ∈ planBranches (buildPlan g start false) ↔ Reach g start z := by
  unfold buildPlan
  simp only [Bool.false_eq_true, if_false]
  rw [mem_bfs_iff]
  constructor
  · rintro ⟨a, ha, hr⟩
    rcases List.mem_singleton.mp ha with rfl
    exact hr
  · intro hr
    exact ⟨⟨start, pyStrOr (findParent g start) g.trunk⟩, List.mem_singleton.mpr rfl, hr⟩

lemma mem_buildPlan_true_iff (g : SdGraph) (start z : String) :
    z ∈ planBranches (buildPlan g start true) ↔
      ∃ c ∈ childrenForTraversal g start, Reach g c z := by
  unfold buildPlan
  simp only [if_true]
  rw [mem_bfs_iff]
  constructor
  · rintro ⟨a, ha, hr⟩
    rcases List.mem_map.mp ha with ⟨c, hc, rfl⟩
    exact ⟨c, hc, hr⟩
  · rintro ⟨c, hc, hr⟩
    exact ⟨⟨c, start⟩, List.mem_map.mpr ⟨c, hc, rfl⟩, hr⟩

/-- C5 amended: the plan never repeats a branch name; the branches of a
full-mode plan are exactly those reachable from the start along the
traversal's children relation, and the branches of a `descendants_only`
plan are exactly those reachable from the start's traversal children (this
set excludes the start branch exactly when no cycle leads back to it, as in
every well-formed graph); the spec's two example plans come out as stated. -/
theorem claim5_amended :
    (∀ (g : SdGraph) (start : String) (d : Bool),
        (planBranches (buildPlan g start d)).Nodup) ∧
    (∀ (g : SdGraph) (start z : String),
        z ∈ planBranches (buildPlan g start false) ↔ Reach g start z) ∧
    (∀ (g : SdGraph) (start z : String),
        z ∈ planBranches (buildPlan g start true) ↔
          ∃ c ∈ childrenForTraversal g start, Reach g c z) ∧
    buildPlan exGraph "A" false = [⟨"A", "main"⟩, ⟨"B", "A"⟩] ∧
    buildPlan exGraph "A" true = [⟨"B", "A"⟩] := by
  refine ⟨?_, mem_buildPlan_false_iff, mem_buildPlan_true_iff, ?_, ?_⟩
  · intro g start d
    cases d
    · exact (bfs_nodup g _ ∅).1
    · exact (bfs_nodup g _ ∅).1
  · simp [buildPlan, bfsPlan, childrenForTraversal, findParent, exGraph, pyStrOr,
      List.lookup, List.find?]
  · simp [buildPlan, bfsPlan, childrenForTraversal, findParent, exGraph, pyStrOr,
      List.lookup, List.find?]

lemma reach_cyc_subset (z : String) (h : Reach cycGraph "A" z) :
    z = "A" ∨ z = "B" := by
  induction h with
  | refl => exact Or.inl rfl
  | tail _hr hstep ih =>
    unfold stepRel at hstep
    rcases ih with hb | hb
    · rw [hb] at hstep
      rw [show childrenForTraversal cycGraph "A" = ["B"] from rfl] at hstep
      exact Or.inr (List.mem_singleton.mp hstep)
    · rw [hb] at hstep
      rw [show childrenForTraversal cycGraph "B" = ["A"] from rfl] at hstep
      exact Or.inl (List.mem_singleton.mp hstep)

/-- C5 counterexample: on the hand-edited cycle `A ↔ B`, the
`descendants_only` plan from `A` has length 2 (it visits `B` and then `A`
itself again), while the number of distinct branches reachable from `A`
excluding the start branch itself is 1 — so the claimed length equation
fails on this graph. -/
theorem claim5_counterexample :
    (buildPlan cycGraph "A" true).length = 2 ∧
    {z : String | Reach cycGraph "A" z ∧ z ≠ "A"}.ncard = 1 ∧
    (buildPlan cycGraph "A" true).length ≠
      {z : String | Reach cycGraph "A" z ∧ z ≠ "A"}.ncard := by
  have hset : {z : String | Reach cycGraph "A" z ∧ z ≠ "A"} = {"B"} := by
    ext z
    simp only [Set.mem_setOf_eq, Set.mem_singleton_iff]
    constructor
    · rintro ⟨hr, hne⟩
      rcases reach_cyc_subset z hr with h | h
      · exact absurd h hne
      · exact h
    · rintro rfl
      refine ⟨Relation.ReflTransGen.single ?_, by decide⟩
      unfold stepRel
      rw [show childrenForTraversal cycGraph "A" = ["B"] from rfl]
      exact List.mem_singleton.mpr rfl
  have hlen : (buildPlan cycGraph "A" true).length = 2 := by
    simp [buildPlan, bfsPlan, childrenForTraversal, findParent, cycGraph,
      List.lookup, List.find?]
  refine ⟨hlen, ?_, ?_⟩
  · rw [hset]
    exact Set.ncard_singleton _
  · rw [hlen, hset, Set.ncard_singleton]
    decide

/-- C9: every produced plan is parent-closed.  In full mode the first step
is the start branch (with parent `find_parent(start) or trunk`) and every
later step's parent is the branch of a strictly earlier step; in
`descendants_only` mode every step's parent is the start branch or the
branch of a strictly earlier step. -/
theorem claim9_parent_closed (g : SdGraph) (start : String) :
    (∃ rest,
        buildPlan g start false =
          ⟨start, pyStrOr (findParent g start) g.trunk⟩ :: rest ∧
        ParentClosed [start] rest) ∧
    ParentClosed [start] (buildPlan g start true) := by
  constructor
  · have h0 : (⟨start, pyStrOr (findParent g start) g.trunk⟩ : PlanAction).branch ∉
        (∅ : Finset String) := by simp
    have heq := bfsPlan_visit g ⟨start, pyStrOr (findParent g start) g.trunk⟩ [] ∅ h0
    refine ⟨bfsPlan g
        ([] ++ ((childrenForTraversal g start).filter
            (fun c => decide (c ∉ insert start (∅ : Finset String)))).map
          (fun c => ⟨c, start⟩))
        (insert start ∅), ?_, ?_⟩
    · unfold buildPlan
      simp only [Bool.false_eq_true, if_false]
      rw [heq]
    · apply parentClosed_bfs
      intro x hx
      rcases List.mem_append.mp hx with hxr | hxk
      · simp at hxr
      · rcases List.mem_map.mp hxk with ⟨c, _hc, hcx⟩
        have : x.parent = start := by rw [← hcx]
        rw [this]
        exact List.mem_cons_self _ _
  · unfold buildPlan
    simp only [if_true]
    apply parentClosed_bfs
    intro x hx
    rcases List.mem_map.mp hx with ⟨c, _hc, hcx⟩
    have : x.parent = start := by rw [← hcx]
    rw [this]
    exact List.mem_cons_self _ _

/-- C2: when the user command first fails at step `i` of the plan,
`_process_plan` exits with code 1 having persisted exactly one Checkpoint,
whose `remaining_plan` is the suffix of the plan starting immediately after
the failed step and whose `user_command`, `start_branch`, `env_vars` and
`post_flight_cmd` are the originals, unchanged. -/
theorem claim2_checkpoint (sh : ShellOracle) (plan : List PlanAction)
    (uc trunk start alias_name : String) (custom : EnvMap) (pf : Option String)
    (s : EngState) (i : Nat) (hi : i < plan.length)
    (hfail : sh uc (stepEnv plan[i] trunk custom) = false)
    (hpre : ∀ j (hj : j < i), sh uc (stepEnv plan[j] trunk custom) = true) :
    ∃ s', processPlan sh plan uc trunk start alias_name custom pf s = .exited 1 s' ∧
      s'.resume = some ⟨"run", start, uc, plan.drop (i + 1), alias_name, custom, pf⟩ ∧
      s'.log.filter Event.isSaveResume =
        s.log.filter Event.isSaveResume ++
          [Event.saveResume ⟨"run", start, uc, plan.drop (i + 1), alias_name, custom, pf⟩] := by
  induction plan generalizing i s with
  | nil => exact absurd hi (Nat.not_lt_zero i)
  | cons a rest ih =>
    cases i with
    | zero =>
      have hfa : sh uc (stepEnv a trunk custom) = false := by
        simpa using hfail
      refine ⟨doSaveResume
          (logEvent (doCheckout s a.branch)
            (.shell .step uc (stepEnv a trunk custom) false))
          ⟨"run", start, uc, rest, alias_name, custom, pf⟩, ?_, ?_, ?_⟩
      · rw [processPlan]
        simp only [hfa, Bool.false_eq_true, if_false]
      · rfl
      · simp [doSaveResume, logEvent, doCheckout, List.filter_append, Event.isSaveResume]
    | succ j =>
      have hta : sh uc (stepEnv a trunk custom) = true := by
        simpa using hpre 0 (Nat.succ_pos j)
      have hj : j < rest.length := by simpa using hi
      have hfail' : sh uc (stepEnv rest[j] trunk custom) = false := by
        simpa using hfail
      have hpre' : ∀ k (hk : k < j), sh uc (stepEnv rest[k] trunk custom) = true := by
        intro k hk
        have := hpre (k + 1) (Nat.succ_lt_succ hk)
        simpa using this
      rcases ih (logEvent (doCheckout s a.branch)
          (.shell .step uc (stepEnv a trunk custom) true)) j hj hfail' hpre' with
        ⟨s', h1, h2, h3⟩
      refine ⟨s', ?_, h2, ?_⟩
      · rw [processPlan]
        simp only [hta, if_true]
        exact h1
      · rw [h3]
        simp [logEvent, doCheckout, List.filter_append, Event.isSaveResume]

theorem claim2_witness :
    ∃ s',
      processPlan (fun _ env => envLookup env "SD_CURRENT_BRANCH" == some "A")
        [⟨"A", "main"⟩, ⟨"B", "A"⟩] "make test" "main" "A" "run" [] none
        ⟨"A", none, []⟩ = .exited 1 s' ∧
      s'.resume =
        some ⟨"run", "A", "make test",
          ([⟨"A", "main"⟩, ⟨"B", "A"⟩] : List PlanAction).drop 2, "run", [], none⟩ ∧
      s'.log.filter Event.isSaveResume =
        ([] : List Event).filter Event.isSaveResume ++
          [Event.saveResume ⟨"run", "A", "make test",
            ([⟨"A", "main"⟩, ⟨"B", "A"⟩] : List PlanAction).drop 2, "run", [], none⟩] :=
  claim2_checkpoint (fun _ env => envLookup env "SD_CURRENT_BRANCH" == some "A")
    [⟨"A", "main"⟩, ⟨"B", "A"⟩] "make test" "main" "A" "run" [] none
    ⟨"A", none, []⟩ 1 (by decide) (by decide)
    (by
      intro j hj
      have hj0 : j = 0 := by omega
      subst hj0
      simp only [List.getElem_cons_zero]
      decide)

/-- Checkpointed concrete state used for the post-flight counterexample:
an aborted operation whose Checkpoint carries a post-flight command. -/
def rsPostFlight : ResumeState :=
  ⟨"run", "start-branch", "echo hi", [], "myalias", [], some "pf-cmd"⟩

/-- C3 counterexample: aborting with a Checkpoint whose post-flight command
fails makes the engine exit 1 *before* cleanup — the Checkpoint is still
persisted and the working tree is still on the branch the abort was invoked
from, contradicting "cleanup runs regardless of the post_flight exit
status". -/
theorem claim3_counterexample :
    handleRun (fun cmd _ => cmd != "pf-cmd") ⟨"main", []⟩ (fun _ => none)
        { abort_run := .requested } none ⟨"other-branch", some rsPostFlight, []⟩ =
      .exited 1
        ⟨"other-branch", some rsPostFlight,
          [Event.shell .remediation "true" [("SD_CURRENT_BRANCH", "other-branch")] true,
           Event.shell .postFlight "pf-cmd"
             [("SD_TRUNK_BRANCH", "main"), ("SD_START_BRANCH", "start-branch")] false]⟩ ∧
    rsPostFlight.post_flight_cmd = some "pf-cmd" ∧
    some rsPostFlight ≠ (none : Option ResumeState) ∧
    ("other-branch" : String) ≠ rsPostFlight.start_branch := by
  refine ⟨?_, rfl, by decide, by decide⟩
  rfl

/-- C3 amended: on the shared completion path (after a completed plan, a
successful continue, or an abort) a missing or successful post-flight
command is followed by unconditional cleanup, which returns to
`start_branch` and clears the Checkpoint; a failing post-flight command
instead exits 1 *without* cleanup, leaving branch and Checkpoint exactly as
they were. -/
theorem claim3_amended (sh : ShellOracle) (trunk start_branch pf : String)
    (envv : EnvMap) (s : EngState) (e : Event) :
    (performCleanup s start_branch).resume = none ∧
    (performCleanup s start_branch).branch = start_branch ∧
    finishOperation sh none trunk start_branch envv s =
      .ok (performCleanup s start_branch) ∧
    (finishOperation sh (some pf) trunk start_branch envv s =
      if sh pf (flightEnv trunk start_branch envv) then
        .ok (performCleanup
          (logEvent s (.shell .postFlight pf (flightEnv trunk start_branch envv) true))
          start_branch)
      else
        .exited 1
          (logEvent s (.shell .postFlight pf (flightEnv trunk start_branch envv) false))) ∧
    (logEvent s e).resume = s.resume ∧
    (logEvent s e).branch = s.branch := by
  refine ⟨?_, ?_, rfl, ?_, rfl, rfl⟩
  · unfold performCleanup doSaveGraph doClearResume doCheckout
    by_cases hb : s.branch = start_branch <;> cases hr : s.resume <;> simp [hb, hr]
  · unfold performCleanup doSaveGraph doClearResume doCheckout
    by_cases hb : s.branch = start_branch <;> cases hr : s.resume <;> simp [hb, hr]
  · unfold finishOperation runPostFlight
    cases hok : sh pf (flightEnv trunk start_branch envv) <;> simp [hok]

/-- C6: both precondition violations — continue/abort with CLI environment
variables, and a fresh run while a Checkpoint exists — make `handle_run`
exit 1 returning the state untouched: same Checkpoint, same log (so no
graph save, no Checkpoint write, no checkout), same checked-out branch. -/
theorem claim6_preconditions (sh : ShellOracle) (g : SdGraph)
    (aliasLookup : String → Option Alias) (args : RunArgs)
    (aliasDef : Option Alias) (s : EngState) :
    ((args.continue_run.truthy = true ∨ args.abort_run.truthy = true) →
      cliEnvTruthy args.cli_env_vars = true →
      handleRun sh g aliasLookup args aliasDef s = .exited 1 s) ∧
    (args.continue_run.truthy = false → args.abort_run.truthy = false →
      ∀ rs, s.resume = some rs →
      handleRun sh g aliasLookup args aliasDef s = .exited 1 s) := by
  constructor
  · intro hflag hcli
    unfold handleRun
    rcases hflag with h | h <;> simp [h, hcli]
  · intro hc ha rs hrs
    unfold handleRun
    simp [hc, ha, hrs]

theorem claim6_witness :
    handleRun (fun _ _ => true) ⟨"main", []⟩ (fun _ => none)
        { continue_run := .requested, cli_env_vars := some [("REMOTE", "origin")] }
        none ⟨"feat", none, []⟩ =
      .exited 1 ⟨"feat", none, []⟩ ∧
    handleRun (fun _ _ => true) ⟨"main", []⟩ (fun _ => none)
        { command_string := some "make test" } none
        ⟨"feat", some ⟨"run", "S", "c", [], "run", [], none⟩, []⟩ =
      .exited 1 ⟨"feat", some ⟨"run", "S", "c", [], "run", [], none⟩, []⟩ :=
  ⟨(claim6_preconditions (fun _ _ => true) ⟨"main", []⟩ (fun _ => none)
      { continue_run := .requested, cli_env_vars := some [("REMOTE", "origin")] }
      none ⟨"feat", none, []⟩).1 (Or.inl rfl) rfl,
   (claim6_preconditions (fun _ _ => true) ⟨"main", []⟩ (fun _ => none)
      { command_string := some "make test" } none
      ⟨"feat", some ⟨"run", "S", "c", [], "run", [], none⟩, []⟩).2 rfl rfl
      ⟨"run", "S", "c", [], "run", [], none⟩ rfl⟩

lemma processPlan_log_no_remediation (sh : ShellOracle) (plan : List PlanAction)
    (uc trunk start alias_name : String) (custom : EnvMap) (pf : Option String) :
    ∀ s : EngState, ∃ tail,
      (processPlan sh plan uc trunk start alias_name custom pf s).log = s.log ++ tail ∧
      tail.all (fun e => !e.isRemediationShell) = true := by
  induction plan with
  | nil =>
    intro s
    exact ⟨[], by simp [processPlan, Outcome.log], rfl⟩
  | cons a rest ih =>
    intro s
    cases hok : sh uc (stepEnv a trunk custom) with
    | false =>
      refine ⟨[Event.checkout a.branch,
        Event.shell .step uc (stepEnv a trunk custom) false,
        Event.saveResume ⟨"run", start, uc, rest, alias_name, custom, pf⟩,
        Event.saveGraph], ?_, rfl⟩
      rw [processPlan]
      simp [hok, Outcome.log, doSaveResume, logEvent, doCheckout]
    | true =>
      rcases ih (logEvent (doCheckout s a.branch)
          (.shell .step uc (stepEnv a trunk custom) true)) with ⟨t, h1, h2⟩
      refine ⟨Event.checkout a.branch ::
        Event.shell .step uc (stepEnv a trunk custom) true :: t, ?_, ?_⟩
      · rw [processPlan]
        simp only [hok, if_true]
        rw [h1]
        simp [logEvent, doCheckout]
      · simpa [Event.isRemediationShell] using h2

lemma performCleanup_log_no_remediation (s : EngState) (start : String) :
    ∃ tail, (performCleanup s start).log = s.log ++ tail ∧
      tail.all (fun e => !e.isRemediationShell) = true := by
  unfold performCleanup doSaveGraph doClearResume doCheckout
  by_cases hb : s.branch = start <;> cases hr : s.resume
  · exact ⟨[Event.saveGraph], by simp [hb, hr], rfl⟩
  · exact ⟨[Event.saveGraph, Event.saveGraph], by simp [hb, hr], rfl⟩
  · exact ⟨[Event.checkout start, Event.saveGraph], by simp [hb, hr], rfl⟩
  · exact ⟨[Event.checkout start, Event.saveGraph, Event.saveGraph],
      by simp [hb, hr], rfl⟩

lemma finishOperation_log_no_remediation (sh : ShellOracle) (post : Option String)
    (trunk start : String) (envv : EnvMap) (s : EngState) :
    ∃ tail, (finishOperation sh post trunk start envv s).log = s.log ++ tail ∧
      tail.all (fun e => !e.isRemediationShell) = true := by
  cases post with
  | none =>
    rcases performCleanup_log_no_remediation s start with ⟨t, h1, h2⟩
    exact ⟨t, by simpa [finishOperation, Outcome.log] using h1, h2⟩
  | some pf =>
    unfold finishOperation runPostFlight
    cases hok : sh pf (flightEnv trunk start envv) with
    | false =>
      refine ⟨[Event.shell .postFlight pf (flightEnv trunk start envv) false], ?_, rfl⟩
      simp [hok, Outcome.log, logEvent]
    | true =>
      rcases performCleanup_log_no_remediation
          (logEvent s (.shell .postFlight pf (flightEnv trunk start envv) true)) start with
        ⟨t, h1, h2⟩
      refine ⟨Event.shell .postFlight pf (flightEnv trunk start envv) true :: t, ?_, ?_⟩
      · simp only [hok, if_true]
        rw [Outcome.log, h1]
        simp [logEvent]
      · simpa [Event.isRemediationShell] using h2

/-- C7 amended: the remediation command is resolved as: an explicit string
passed with the continue/abort flag wins; otherwise the checkpointed
alias's configured `continue_cmd` (continue) or `abort_cmd` (abort) when it
is present *and non-empty* (Python truthiness: a configured empty string
falls through); otherwise the literal no-op `"true"` — and
`_handle_continue_abort` runs exactly one remediation shell command, with
exactly that resolved string. -/
theorem claim7_amended :
    (∀ (c : String) (ab : RunFlag) (ad : Option Alias),
        resolveRemediation true (.withOverride c) ab ad = c) ∧
    (∀ (c : String) (cf : RunFlag) (ad : Option Alias),
        resolveRemediation false cf (.withOverride c) ad = c) ∧
    (∀ (ab : RunFlag) (a : Alias) (c : String),
        a.continue_cmd = some c → c ≠ "" →
        resolveRemediation true .requested ab (some a) = c) ∧
    (∀ (cf : RunFlag) (a : Alias) (c : String),
        a.abort_cmd = some c → c ≠ "" →
        resolveRemediation false cf .requested (some a) = c) ∧
    (∀ (ab : RunFlag) (a : Alias),
        a.continue_cmd = none ∨ a.continue_cmd = some "" →
        resolveRemediation true .requested ab (some a) = "true") ∧
    (∀ (cf : RunFlag) (a : Alias),
        a.abort_cmd = none ∨ a.abort_cmd = some "" →
        resolveRemediation false cf .requested (some a) = "true") ∧
    (∀ ab : RunFlag, resolveRemediation true .requested ab none = "true") ∧
    (∀ cf : RunFlag, resolveRemediation false cf .requested none = "true") ∧
    (∀ (sh : ShellOracle) (g : SdGraph) (aliasLookup : String → Option Alias)
        (args : RunArgs) (rs : ResumeState) (s : EngState),
      ∃ tail,
        (handleContinueAbort sh g aliasLookup args rs s).log =
          s.log ++
            Event.shell .remediation
              (resolveRemediation args.continue_run.truthy args.continue_run
                args.abort_run (aliasLookup rs.alias_name))
              (remediationEnv s.branch rs.env_vars)
              (sh (resolveRemediation args.continue_run.truthy args.continue_run
                    args.abort_run (aliasLookup rs.alias_name))
                (remediationEnv s.branch rs.env_vars)) :: tail ∧
        tail.all (fun e => !e.isRemediationShell) = true) := by
  refine ⟨fun _ _ _ => rfl, fun _ _ _ => rfl, ?_, ?_, ?_, ?_, fun _ => rfl, fun _ => rfl, ?_⟩
  · intro ab a c hc hne
    unfold resolveRemediation
    simp [hc, pyStrOr, hne]
  · intro cf a c hc hne
    unfold resolveRemediation
    simp [hc, pyStrOr, hne]
  · intro ab a hc
    unfold resolveRemediation
    rcases hc with h | h <;> simp [h, pyStrOr]
  · intro cf a hc
    unfold resolveRemediation
    rcases hc with h | h <;> simp [h, pyStrOr]
  · intro sh g aliasLookup args rs s
    simp only [handleContinueAbort]
    generalize args.continue_run.truthy = isC
    generalize resolveRemediation isC args.continue_run args.abort_run
      (aliasLookup rs.alias_name) = cmd
    generalize sh cmd (remediationEnv s.branch rs.env_vars) = ok
    have hs1log : (logEvent s
        (.shell .remediation cmd (remediationEnv s.branch rs.env_vars) ok)).log =
        s.log ++ [Event.shell .remediation cmd (remediationEnv s.branch rs.env_vars) ok] :=
      rfl
    cases isC with
    | false =>
      simp only [Bool.false_eq_true, if_false]
      rcases finishOperation_log_no_remediation sh rs.post_flight_cmd g.trunk
          rs.start_branch rs.env_vars
          (logEvent s (.shell .remediation cmd (remediationEnv s.branch rs.env_vars) ok))
        with ⟨t, h1, h2⟩
      exact ⟨t, by rw [h1, hs1log]; simp, h2⟩
    | true =>
      simp only [if_true]
      cases ok with
      | false =>
        simp only [Bool.false_eq_true, if_false]
        refine ⟨[Event.saveResume rs, Event.saveGraph], ?_, rfl⟩
        simp [Outcome.log, doSaveResume, hs1log]
      | true =>
        simp only [if_true]
        rcases processPlan_log_no_remediation sh rs.plan rs.user_command g.trunk
            rs.start_branch rs.alias_name rs.env_vars rs.post_flight_cmd
            (logEvent s
              (.shell .remediation cmd (remediationEnv s.branch rs.env_vars) true)) with
          ⟨t, h1, h2⟩
        cases hpp : processPlan sh rs.plan rs.user_command g.trunk rs.start_branch
            rs.alias_name rs.env_vars rs.post_flight_cmd
            (logEvent s
              (.shell .remediation cmd (remediationEnv s.branch rs.env_vars) true)) with
        | ok s' =>
          rcases finishOperation_log_no_remediation sh rs.post_flight_cmd g.trunk
              rs.start_branch rs.env_vars s' with ⟨t2, h3, h4⟩
          refine ⟨t ++ t2, ?_, ?_⟩
          · rw [hpp] at h1
            rw [h3, show s'.log = _ ++ t from h1, hs1log]
            simp
          · simp only [List.all_append, h2, h4, Bool.and_self]
        | exited c s' =>
          rw [hpp] at h1
          refine ⟨t, ?_, h2⟩
          rw [show (Outcome.exited c s').log = _ ++ t from h1, hs1log]
          simp
        | diverge s' =>
          rw [hpp] at h1
          refine ⟨t, ?_, h2⟩
          rw [show (Outcome.diverge s').log = _ ++ t from h1, hs1log]
          simp

/-- Alias exhibiting a configured-but-empty continue remediation command. -/
def emptyContinueAlias : Alias :=
  { description := "d", continue_cmd := some "" }

/-- C7 counterexample: an alias whose `continue_cmd` is present but the
empty string is falsy in Python, so `_handle_continue_abort` resolves the
remediation to the no-op `"true"` instead of the configured value —
"used if present" is wrong for the configured empty command. -/
theorem claim7_counterexample :
    emptyContinueAlias.continue_cmd = some "" ∧
    resolveRemediation true .requested .notRequested (some emptyContinueAlias) = "true" ∧
    ("true" : String) ≠ "" := by
  exact ⟨rfl, rfl, by decide⟩

theorem claim7_witness :
    resolveRemediation true .requested .notRequested
      (some { description := "", command := {},
              continue_cmd := some "git rebase --continue", abort_cmd := none,
              env := [] }) = "git rebase --continue" ∧
    (∃ tail,
      (handleContinueAbort (fun _ _ => true) ⟨"main", []⟩ (fun _ => none)
          { abort_run := .requested } ⟨"run", "S", "c", [], "run", [], none⟩
          ⟨"S", none, []⟩).log =
        ([] : List Event) ++
          Event.shell .remediation "true" [("SD_CURRENT_BRANCH", "S")] true :: tail ∧
      tail.all (fun e => !e.isRemediationShell) = true) :=
  ⟨claim7_amended.2.2.1 .notRequested
      { description := "", command := {},
        continue_cmd := some "git rebase --continue", abort_cmd := none, env := [] }
      "git rebase --continue" rfl (by decide),
   claim7_amended.2.2.2.2.2.2.2.2 (fun _ _ => true) ⟨"main", []⟩ (fun _ => none)
      { abort_run := .requested } ⟨"run", "S", "c", [], "run", [], none⟩
      ⟨"S", none, []⟩⟩

/-- C10: a fresh run whose computed plan is empty and that has no
post-flight command returns successfully without writing anything: the
checked-out branch is untouched, the Checkpoint is untouched, and the
effect log gains no write event (no graph save, no Checkpoint write, no
checkout) — the graph save and cleanup are reached only with a non-empty
plan or a post-flight command. -/
theorem claim10_empty_plan (sh : ShellOracle) (g : SdGraph) (args : RunArgs)
    (aliasDef : Option Alias) (envv : EnvMap) (uc : String)
    (pre : Option String) (s : EngState) (ps : String)
    (hpre : ∀ pf, pre = some pf → sh pf (flightEnv g.trunk s.branch envv) = true)
    (hps : planStartOf g (startFromRootOf aliasDef) s.branch = some ps)
    (hplan : buildPlan g ps (descOnlyOf aliasDef) = []) :
    ∃ s', handleNewRun sh g args aliasDef envv uc pre none s = .ok s' ∧
      s'.branch = s.branch ∧ s'.resume = s.resume ∧
      s'.log.filter Event.isWrite = s.log.filter Event.isWrite := by
  cases pre with
  | none =>
    refine ⟨s, ?_, rfl, rfl, rfl⟩
    simp only [handleNewRun]
    rw [hps]
    simp [hplan]
  | some pf =>
    have hok : sh pf (flightEnv g.trunk s.branch envv) = true := hpre pf rfl
    refine ⟨logEvent s (.shell .preFlight pf (flightEnv g.trunk s.branch envv) true),
      ?_, rfl, rfl, ?_⟩
    · simp only [handleNewRun, runPreFlight, hok, if_true]
      rw [hps]
      simp [hplan]
    · simp [logEvent, List.filter_append, Event.isWrite]

theorem claim10_witness :
    ∃ s',
      handleNewRun (fun _ _ => true) ⟨"main", [("leaf", [])]⟩ {}
          (some { command := { descendants_only := true } }) [] "touch f" none none
          ⟨"leaf", none, []⟩ = .ok s' ∧
      s'.branch = "leaf" ∧ s'.resume = none ∧
      s'.log.filter Event.isWrite = ([] : List Event).filter Event.isWrite :=
  claim10_empty_plan (fun _ _ => true) ⟨"main", [("leaf", [])]⟩ {}
    (some { command := { descendants_only := true } }) [] "touch f" none
    ⟨"leaf", none, []⟩ "leaf"
    (by intro pf h; cases h)
    rfl
    (by simp [buildPlan, bfsPlan, childrenForTraversal, descOnlyOf, List.lookup])

end StackedDiffs
